import Mathlib

/-
Verification development for the materia repository.

Shallow embedding of the task/workflow core (src/src/materia/workflow/tasks.py)
and the Q-Chem engine glue (src/src/materia/engines/qchem.py).  Python floats
are modelled as rationals, mutable mappings as association lists with explicit
state passing, and fallible code via Option/Except.
-/

namespace Materia

/-! ## Settings model

The `mtr.Settings` container is not under src/ (it lives in materia.utils).
Modelled from the spec: settings are a mapping from key tuples (for example
`("rem", "exchange")`) to values, supporting membership tests, lookup and
assignment; keys are tuples of strings, values are strings, integers or
booleans. -/

/-- Setting values: strings, integers or booleans, as written by the
`defaults` methods in qchem.py. -/
inductive SVal where
  | s (str : String)
  | i (int : Int)
  | b (bool : Bool)
deriving DecidableEq, Repr

/-- Setting keys are tuples of block / option names, modelled as lists. -/
abbrev SKey := List String

/-- Modelled from the spec: an `mtr.Settings` object is a finite mapping from
key tuples to values; represented as an association list. -/
abbrev Settings := List (SKey × SVal)

/-- Membership test, modelling Python `key in settings`. -/
def memS (s : Settings) (k : SKey) : Bool := s.any (fun p => p.1 = k)

/-- Lookup, modelling Python `settings[key]`. -/
def getS (s : Settings) (k : SKey) : Option SVal :=
  (s.find? (fun p => p.1 = k)).map (fun p => p.2)

/-- Assignment, modelling Python `settings[key] = v` (overwrite if present,
append otherwise). -/
def setS (s : Settings) (k : SKey) (v : SVal) : Settings :=
  if memS s k then s.map (fun p => if p.1 = k then (k, v) else p) else s ++ [(k, v)]

/-- Conditional assignment: `if b: settings[k] = v`.  Every `defaults` method
in qchem.py is a chain of these, with `b` the guard of the corresponding
`if ... not in settings` statement. -/
def setWhen (b : Bool) (s : Settings) (k : SKey) (v : SVal) : Settings :=
  if b then setS s k v else s

/-- Embedding of `QChemSinglePoint.defaults` (qchem.py lines 1170-1181). -/
def qchemSinglePointDefaults (settings : Settings) : Settings :=
  let s1 := setWhen (!memS settings ["rem", "exchange"] && !memS settings ["rem", "method"])
      settings ["rem", "exchange"] (.s "HF")
  let s2 := setWhen (!memS s1 ["rem", "basis"]) s1 ["rem", "basis"] (.s "3-21G")
  let s3 := setWhen (!memS s2 ["rem", "jobtype"]) s2 ["rem", "jobtype"] (.s "sp")
  s3

/-- Model of Python `str.lower` on the character list of a string. -/
def lowerChars (l : List Char) : List Char := l.map Char.toLower

/-- Model of Python `str.strip` on the character list of a string: drop
whitespace from both ends. -/
def stripChars (l : List Char) : List Char :=
  ((l.dropWhile Char.isWhitespace).reverse.dropWhile Char.isWhitespace).reverse

/-- Guard of the final `aimd_temp` default in `QChemAIMD.defaults`: the stored
`aimd_init_veloc` value, lowercased and stripped, equals "thermal".  A
non-string value would raise in Python and is modelled as a failed guard. -/
def thermalVal : Option SVal → Bool
  | some (.s v) => stripChars (lowerChars v.data) = "thermal".data
  | _ => false

/-- Embedding of `QChemAIMD.defaults` (qchem.py lines 495-521). -/
def qchemAIMDDefaults (settings : Settings) : Settings :=
  let s1 := setWhen (!memS settings ["rem", "exchange"] && !memS settings ["rem", "method"])
      settings ["rem", "exchange"] (.s "HF")
  let s2 := setWhen (!memS s1 ["rem", "basis"]) s1 ["rem", "basis"] (.s "3-21G")
  let s3 := setWhen (!memS s2 ["rem", "jobtype"]) s2 ["rem", "jobtype"] (.s "aimd")
  let s4 := setWhen (!memS s3 ["rem", "time_step"]) s3 ["rem", "time_step"] (.i 1)
  let s5 := setWhen (!memS s4 ["rem", "aimd_steps"]) s4 ["rem", "aimd_steps"] (.i 10)
  let s6 := setWhen (!memS s5 ["velocity"] && !memS s5 ["rem", "aimd_init_veloc"])
      s5 ["rem", "aimd_init_veloc"] (.s "thermal")
  let s7 := setWhen
      (memS s6 ["rem", "aimd_init_veloc"] && thermalVal (getS s6 ["rem", "aimd_init_veloc"])
        && !memS s6 ["rem", "aimd_temp"])
      s6 ["rem", "aimd_temp"] (.i 300)
  s7

/-! ## Task (tasks.py lines 22-36) -/

/-- Embedding of `Task`: handlers, name, and the recorded requirements
(positional and named dependencies, task references as identifiers). -/
structure MTask where
  handlers : List String
  name : String
  requirements : List Nat × List (String × Nat)
deriving DecidableEq, Repr

/-- Embedding of `Task.__init__` (tasks.py lines 23-30): `handlers or []`,
`name or ""`, requirements initialised to `([], {})`. -/
def taskInit (handlers : Option (List String)) (name : Option String) : MTask :=
  ⟨handlers.getD [], name.getD "", ([], [])⟩

/-- Embedding of `Task.requires` (tasks.py lines 32-33): unconditional
reassignment of the requirements attribute. -/
def taskRequires (t : MTask) (args : List Nat) (kwargs : List (String × Nat)) : MTask :=
  { t with requirements := (args, kwargs) }

/-! ## MaxLIPOTR global optimizer (tasks.py lines 156-189)

`MaxLIPOTR.run` hands the memoized objective and the bound lists to
`dlib.find_min_global`.  dlib is an external collaborator; it is modelled from
its documented contract (corroborated by the tests in
src/tests/utils/test_maxlipotr_minimizer.py): it evaluates the objective at a
finite sequence of points of the search box, at most `num_evals` of them, and
returns the sampled point with the MINIMAL observed objective value together
with that value.  The sampling sequence chosen by the stochastic search is
abstracted as an explicit `samples` parameter. -/

/-- A bound argument to `run`: a scalar or a list (Python
`isinstance(x, list)` dispatch). -/
abbrev BoundsIn := Sum ℚ (List ℚ)

/-- Embedding of the bound normalisation in `MaxLIPOTR.run` (tasks.py lines
180-181): `x if isinstance(x, list) else [x]`. -/
def toBoundsList : BoundsIn → List ℚ
  | .inl x => [x]
  | .inr l => l

/-- Best-observed minimising pair over a list of sample points. -/
def argminList (f : List ℚ → ℚ) : List (List ℚ) → List ℚ × ℚ
  | [] => ([], 0)
  | [p] => (p, f p)
  | p :: q :: ps =>
    if f p ≤ (argminList f (q :: ps)).2 then (p, f p) else argminList f (q :: ps)

/-- Model of the collaborator `dlib.find_min_global(f, x_min, x_max,
num_evals, solver_epsilon)`: global minimisation by sampling; evaluates `f`
on at most `numEvals` points of the abstract sample sequence and returns the
lowest-scoring observation. -/
def findMinGlobal (samples : List (List ℚ)) (f : List ℚ → ℚ)
    (xMin xMax : List ℚ) (numEvals : ℕ) (epsilon : ℚ) : List ℚ × ℚ :=
  let _ := xMin
  let _ := xMax
  let _ := epsilon
  argminList f (samples.take numEvals)

/-- Embedding of `MaxLIPOTR.run` (tasks.py lines 170-184): normalise the
bounds and delegate to the global search.  The memoized objective returns the
same values as the underlying objective, so the search is stated over `f`
directly; the memoization layer itself is modelled below. -/
def maxLIPOTRrun (samples : List (List ℚ)) (f : List ℚ → ℚ)
    (xMin xMax : BoundsIn) (numEvals : ℕ) (epsilon : ℚ) : List ℚ × ℚ :=
  findMinGlobal samples f (toBoundsList xMin) (toBoundsList xMax) numEvals epsilon

/-! ## Memoized objective evaluation (tasks.py lines 166-168)

The decorator `materia.utils.memoize` is not under src/.  Modelled from the
spec: objective calls are memoized by the exact argument tuple; a repeated
call with identical arguments returns the cached result without invoking the
underlying function again. -/

/-- Cache plus a counter of underlying objective invocations. -/
structure MemoState where
  cache : List (List ℚ × ℚ)
  calls : ℕ
deriving DecidableEq, Repr

/-- Cache lookup keyed by the exact argument tuple. -/
def memoLookup (cache : List (List ℚ × ℚ)) (args : List ℚ) : Option ℚ :=
  (cache.find? (fun p => p.1 = args)).map (fun p => p.2)

/-- Embedding of `MaxLIPOTR._evaluate_objective` under the modelled `memoize`
decorator: on a cache hit return the stored value and leave the state alone;
on a miss invoke the underlying objective once and record the result. -/
def evaluateObjective (f : List ℚ → ℚ) (st : MemoState) (args : List ℚ) :
    ℚ × MemoState :=
  match memoLookup st.cache args with
  | some v => (v, st)
  | none => (f args, ⟨(args, f args) :: st.cache, st.calls + 1⟩)

/-! ## QChem command line (qchem.py lines 308-328) -/

/-- Engine configuration relevant to `QChem.command`.  The fields are set by
`QChem.__init__` / `Engine.__init__`; `num_processors` and `num_threads` are
optional ints, `arguments` an optional list of strings. -/
structure QChemEngineCfg where
  executable : String
  save : Bool
  arguments : Option (List String)
  numProcessors : Option ℕ
  numThreads : Option ℕ
  savename : Option String
deriving DecidableEq, Repr

/-- Python truthiness of the `savename` field (`if self.save and
self.savename:`): present and non-empty. -/
def savenameTruthy : Option String → Bool
  | some s => s ≠ ""
  | none => false

/-- Embedding of the `cmd` list built by `QChem.command` before the final
join-and-split (qchem.py lines 315-325).  Note that `-np`/`-nt` options are
appended as single strings containing a space, and the savename is appended
with a leading space, exactly as in the source. -/
def qchemCommandWords (e : QChemEngineCfg) (callArgs : Option (List String)) :
    List String :=
  let cmd := [e.executable]
  let cmd := if e.save then cmd ++ ["-save"] else cmd
  let cmd := match e.arguments with
    | some a => cmd ++ (a ++ callArgs.getD [])
    | none => cmd
  let cmd := match e.numProcessors with
    | some n => cmd ++ ["-np " ++ Nat.repr n]
    | none => cmd
  let cmd := match e.numThreads with
    | some n => cmd ++ ["-nt " ++ Nat.repr n]
    | none => cmd
  let cmd := if e.save && savenameTruthy e.savename then
      cmd ++ [" " ++ e.savename.getD ""]
    else cmd
  cmd

/-- Model of Python `" ".join(ws)`. -/
def sjoin : List String → String
  | [] => ""
  | [w] => w
  | w :: x :: ws => w ++ " " ++ sjoin (x :: ws)

/-- Model of `shlex.split` for quote-free input: split on spaces and drop
empty fields.  Faithful to shlex on strings whose words contain no quoting or
whitespace characters, which is what the grammar theorem assumes. -/
def shlexSplit (s : String) : List String :=
  ((s.data.splitOn ' ').filter (fun w => w ≠ [])).map (fun w => String.mk w)

/-- Embedding of `QChem.command` (qchem.py lines 308-328): build the word
list, join with spaces together with the input and output paths, and re-split
(`shlex.split(" ".join(cmd + [inp, out]))`). -/
def qchemCommand (e : QChemEngineCfg) (inp out : String)
    (callArgs : Option (List String)) : List String :=
  shlexSplit (sjoin (qchemCommandWords e callArgs ++ [inp, out]))

/-- A plain shell word: non-empty and free of whitespace (so that the final
join-and-split round trip of `QChem.command` is faithful to shlex). -/
def shellWord (s : String) : Prop :=
  s.data ≠ [] ∧ ∀ c ∈ s.data, c.isWhitespace = false

/-! ## Output parsing (qchem.py lines 993-1002, 1161-1217)

The external collaborator `cclib.io.ccread` yields a data object whose
attributes may be absent when the corresponding markers are missing from the
output file; an absent attribute raises `AttributeError` in Python and is
modelled as `none`.  Scalar physical data are abstracted as rationals. -/

/-- Attributes of a parsed cclib output that the qchem.py parsers read. -/
structure CclibData where
  scfenergies : Option ℚ
  moenergies : Option (List (List ℚ))
  homos : Option (List ℕ)
  polarizabilities : Option (List ℚ)
deriving DecidableEq, Repr

/-- A physical quantity: a value together with its unit. -/
abbrev Quantity := ℚ × String

/-- Exceptions that the embedded parse functions can propagate (exceptions
other than `AttributeError` are not caught by the parsers). -/
inductive PyErr where
  | valueError
  | indexError
deriving DecidableEq, Repr

/-- Embedding of `QChemSinglePoint.parse` (qchem.py lines 1162-1168):
`scfenergies * mtr.eV`, with `AttributeError` mapped to `None`. -/
def qchemSinglePointParse (d : CclibData) : Option Quantity :=
  match d.scfenergies with
  | none => none
  | some e => some (e, "eV")

/-- Python tuple unpacking `homo, lumo = moe[h : h + 2]`: exactly two
elements required, otherwise `ValueError`. -/
def frontierPair (moe : List ℚ) (h : ℕ) : Except PyErr (ℚ × ℚ) :=
  match (moe.drop h).take 2 with
  | [a, b] => .ok (a, b)
  | _ => .error .valueError

/-- Embedding of `QChemSinglePointFrontier.parse` (qchem.py lines 1185-1207):
on any absent attribute the `except AttributeError` branch yields
`(None, None, None)`; otherwise the homo/lumo lists are built and their
max/min taken (raising on malformed data, which the parser does not catch). -/
def qchemSinglePointFrontierParse (d : CclibData) :
    Except PyErr (Option Quantity × Option Quantity × Option Quantity) :=
  match d.scfenergies, d.moenergies, d.homos with
  | some e, some moes, some hs => do
    let pairs ← (moes.zip hs).mapM (fun p => frontierPair p.1 p.2)
    match (pairs.map (fun p => p.1)).max?, (pairs.map (fun p => p.2)).min? with
    | some ho, some lu => .ok (some (e, "eV"), some (ho, "eV"), some (lu, "eV"))
    | _, _ => .error .valueError
  | _, _, _ => .ok (none, none, none)

/-- Result type of `QChemPolarizability.parse`: `mtr.Polarizability` wrapping
a possibly-null tensor. -/
structure Polarizability where
  tensor : Option Quantity
deriving DecidableEq, Repr

/-- Embedding of `QChemPolarizability.parse` (qchem.py lines 994-1002):
`polarizabilities[-1] * mtr.au_volume` with `AttributeError` mapped to `None`
(then wrapped); indexing an empty list raises `IndexError`, which is not
caught. -/
def qchemPolarizabilityParse (d : CclibData) : Except PyErr Polarizability :=
  match d.polarizabilities with
  | none => .ok ⟨none⟩
  | some [] => .error .indexError
  | some (p :: ps) => .ok ⟨some (ps.getLastD p, "au_volume")⟩

/-! ## QChemBaseTask.compute (qchem.py lines 466-481) -/

/-- Observable effects of one `compute` call, in order. -/
inductive QCEvent where
  | writeInput
  | executeEngine
  | parseOutput
deriving DecidableEq, Repr

/-- Embedding of `QChemBaseTask.compute`: copy the caller settings (empty
settings when `None`), apply the subclass defaults, write the input deck,
invoke the engine once (a stub collaborator producing the parsed-output data),
and parse.  Returns the effect trace alongside the parse result. -/
def qchemBaseCompute {α : Type} (defaults : Settings → Settings)
    (parse : CclibData → α) (engineOut : String × Settings → CclibData)
    (molecule : String) (settings : Option Settings) : List QCEvent × α :=
  let s := match settings with
    | none => ([] : Settings)
    | some t => t
  let inp := (molecule, defaults s)
  let out := engineOut inp
  ([.writeInput, .executeEngine, .parseOutput], parse out)

/-! ## Deep copy of caller settings (qchem.py lines 466-474, 615-621, 789-799)

Python object mutation is modelled with an explicit store of `Settings`
objects addressed by index.  `copy.deepcopy` allocates a fresh object; the
in-place mutation performed by `self.defaults(s)` writes through the new
index only. -/

/-- Model of `copy.deepcopy(settings)`: append a copy of the object at `r`
and return the new store with the fresh index. -/
def deepcopyAlloc (store : List Settings) (r : ℕ) : List Settings × ℕ :=
  (store ++ [store.getD r []], store.length)

/-- Embedding of the settings phase shared by `QChemBaseTask.compute`,
`QChemKoopmanError.compute` and `QChemLRTDDFT.compute`:
`s = mtr.Settings() if settings is None else copy.deepcopy(settings)`
followed by the in-place `self.defaults(s)`.  Returns the updated store and
the index of the private copy. -/
def computeSettingsPhase (defaults : Settings → Settings)
    (store : List Settings) (settings : Option ℕ) : List Settings × ℕ :=
  match settings with
  | none => (store ++ [defaults []], store.length)
  | some r =>
    let a := deepcopyAlloc store r
    (a.1.set a.2 (defaults (a.1.getD a.2 [])), a.2)

/-! ## Koopman error formula (qchem.py lines 615-663) -/

/-- Embedding of the squared error accumulated by `QChemKoopmanError.compute`
(qchem.py lines 656-661): `ea = neutral - anion`, `ip = cation - neutral`,
`J_squared = (ip + homo)^2`, plus `(ea + lumo)^2` only when `ea > 0`.  The
method returns the square root of this quantity. -/
def koopmanErrorJsq (neutral cation anion homo lumo : ℚ) : ℚ :=
  let ea := neutral - anion
  let ip := cation - neutral
  let j := (ip + homo) ^ 2
  if 0 < ea then j + (ea + lumo) ^ 2 else j

/-! ## Properties of the Settings operations -/

theorem getS_cons (p : SKey × SVal) (t : Settings) (k : SKey) :
    getS (p :: t) k = if p.1 = k then some p.2 else getS t k := by
  by_cases hp : p.1 = k <;> simp [getS, List.find?_cons, hp]

theorem memS_cons (p : SKey × SVal) (t : Settings) (k : SKey) :
    memS (p :: t) k = ((p.1 = k : Bool) || memS t k) := by
  simp [memS]

theorem getS_nil (k : SKey) : getS [] k = none := rfl

theorem memS_nil (k : SKey) : memS [] k = false := rfl

theorem memS_of_getS_some {s : Settings} {k : SKey} {v : SVal}
    (h : getS s k = some v) : memS s k = true := by
  induction s with
  | nil => simp [getS] at h
  | cons p t ih =>
    rw [getS_cons] at h
    rw [memS_cons]
    by_cases hp : p.1 = k
    · simp [hp]
    · simp only [hp, if_false] at h
      simp [ih h]

theorem getS_mapUpdate_self {s : Settings} {k : SKey} (v : SVal)
    (hm : memS s k = true) :
    getS (s.map (fun p => if p.1 = k then (k, v) else p)) k = some v := by
  induction s with
  | nil => simp [memS] at hm
  | cons p t ih =>
    by_cases hp : p.1 = k
    · simp [getS_cons, hp]
    · rw [memS_cons] at hm
      simp only [List.map_cons, hp, if_false]
      rw [getS_cons]
      simp only [hp, if_false]
      have hm2 : memS t k = true := by
        rcases (by simpa using hm : p.1 = k ∨ memS t k = true) with h1 | h2
        · exact absurd h1 hp
        · exact h2
      exact ih hm2

theorem getS_append_single_self {s : Settings} {k : SKey} (v : SVal)
    (hm : memS s k = false) :
    getS (s ++ [(k, v)]) k = some v := by
  induction s with
  | nil => simp [getS]
  | cons p t ih =>
    rw [memS_cons] at hm
    by_cases hp : p.1 = k
    · simp [hp] at hm
    · simp only [List.cons_append]
      rw [getS_cons]
      simp only [hp, if_false]
      have hm2 : memS t k = false := by
        have := (by simpa using hm : ¬ p.1 = k ∧ memS t k = false)
        exact this.2
      exact ih hm2

theorem getS_mapUpdate_ne {s : Settings} {k k2 : SKey} (v : SVal) (h : k2 ≠ k) :
    getS (s.map (fun p => if p.1 = k then (k, v) else p)) k2 = getS s k2 := by
  induction s with
  | nil => rfl
  | cons p t ih =>
    by_cases hp : p.1 = k
    · simp only [List.map_cons, hp, if_true]
      rw [getS_cons, getS_cons]
      have hkk : ¬ (k = k2) := fun hh => h hh.symm
      simp [hp, hkk, ih]
    · simp only [List.map_cons, hp, if_false]
      rw [getS_cons, getS_cons, ih]

theorem getS_append_single_ne {s : Settings} {k k2 : SKey} (v : SVal) (h : k2 ≠ k) :
    getS (s ++ [(k, v)]) k2 = getS s k2 := by
  induction s with
  | nil =>
    simp only [List.nil_append]
    rw [getS_cons]
    have hkk : ¬ (k = k2) := fun hh => h hh.symm
    simp [hkk, getS]
  | cons p t ih =>
    simp only [List.cons_append]
    rw [getS_cons, getS_cons, ih]

theorem memS_mapUpdate_ne {s : Settings} {k k2 : SKey} (v : SVal) (h : k2 ≠ k) :
    memS (s.map (fun p => if p.1 = k then (k, v) else p)) k2 = memS s k2 := by
  induction s with
  | nil => rfl
  | cons p t ih =>
    by_cases hp : p.1 = k
    · simp only [List.map_cons, hp, if_true]
      rw [memS_cons, memS_cons]
      have hkk : ¬ (k = k2) := fun hh => h hh.symm
      simp [hp, hkk, ih]
    · simp only [List.map_cons, hp, if_false]
      rw [memS_cons, memS_cons, ih]

theorem memS_append_single_ne {s : Settings} {k k2 : SKey} (v : SVal) (h : k2 ≠ k) :
    memS (s ++ [(k, v)]) k2 = memS s k2 := by
  induction s with
  | nil =>
    simp only [List.nil_append]
    rw [memS_cons]
    have hkk : ¬ (k = k2) := fun hh => h hh.symm
    simp [hkk, memS]
  | cons p t ih =>
    simp only [List.cons_append]
    rw [memS_cons, memS_cons, ih]

theorem getS_setS_self (s : Settings) (k : SKey) (v : SVal) :
    getS (setS s k v) k = some v := by
  unfold setS
  by_cases hm : memS s k
  · simp only [hm, if_true]
    exact getS_mapUpdate_self v hm
  · simp only [hm, if_false]
    exact getS_append_single_self v (by simpa using hm)

theorem getS_setS_ne (s : Settings) {k k2 : SKey} (v : SVal) (h : k2 ≠ k) :
    getS (setS s k v) k2 = getS s k2 := by
  unfold setS
  by_cases hm : memS s k
  · simp only [hm, if_true]
    exact getS_mapUpdate_ne v h
  · simp only [hm, if_false]
    exact getS_append_single_ne v h

theorem memS_setS_ne (s : Settings) {k k2 : SKey} (v : SVal) (h : k2 ≠ k) :
    memS (setS s k v) k2 = memS s k2 := by
  unfold setS
  by_cases hm : memS s k
  · simp only [hm, if_true]
    exact memS_mapUpdate_ne v h
  · simp only [hm, if_false]
    exact memS_append_single_ne v h

theorem getS_setWhen_ne (b : Bool) (s : Settings) {k k2 : SKey} (v : SVal) (h : k2 ≠ k) :
    getS (setWhen b s k v) k2 = getS s k2 := by
  cases b <;> simp [setWhen, getS_setS_ne s v h]

theorem memS_setWhen_ne (b : Bool) (s : Settings) {k k2 : SKey} (v : SVal) (h : k2 ≠ k) :
    memS (setWhen b s k v) k2 = memS s k2 := by
  cases b <;> simp [setWhen, memS_setS_ne s v h]

theorem getS_setWhen_keep {b : Bool} {s : Settings} {k : SKey} {v : SVal}
    {k2 : SKey} {v2 : SVal} (hb : b = true → memS s k = false)
    (h : getS s k2 = some v2) : getS (setWhen b s k v) k2 = some v2 := by
  cases b with
  | false => simpa [setWhen] using h
  | true =>
    have hk2 : k2 ≠ k := by
      intro he
      rw [he] at h
      rw [memS_of_getS_some h] at hb
      exact absurd (hb rfl) (by simp)
    rw [getS_setWhen_ne _ _ _ hk2]
    exact h

theorem getS_setWhen_self {s : Settings} {k : SKey} {v : SVal} :
    getS (setWhen true s k v) k = some v := by
  simp [setWhen, getS_setS_self]


/-! ## Properties of the optimizer model -/

theorem argminList_spec (f : List ℚ → ℚ) (ps : List (List ℚ)) (h : ps ≠ []) :
    (argminList f ps).1 ∈ ps ∧ (argminList f ps).2 = f (argminList f ps).1 ∧
    ∀ q ∈ ps, (argminList f ps).2 ≤ f q := by
  induction ps with
  | nil => exact absurd rfl h
  | cons p t ih =>
    cases t with
    | nil => simp [argminList]
    | cons q ps =>
      have ih2 := ih (by simp)
      by_cases hle : f p ≤ (argminList f (q :: ps)).2
      · rw [argminList, if_pos hle]
        refine ⟨by simp, rfl, ?_⟩
        intro r hr
        rcases List.mem_cons.mp hr with h1 | h2
        · rw [h1]
        · exact le_trans hle (ih2.2.2 r h2)
      · rw [argminList, if_neg hle]
        refine ⟨List.mem_cons_of_mem p ih2.1, ih2.2.1, ?_⟩
        intro r hr
        rcases List.mem_cons.mp hr with h1 | h2
        · rw [h1]
          exact le_of_not_le hle
        · exact ih2.2.2 r h2

/-! ## Claim theorems: optimizer -/

/-- C1 counterexample: the claim says `MaxLIPOTR.run` performs a global
MAXIMIZATION and returns the highest-scoring observation.  On the objective
`f(x) = x` over `[0, 1]` with the sample sequence `[0], [1]`, `run` returns
`([0], 0)`, the LOWEST observation, and the sampled point `[1]` scores
strictly higher than the returned value. -/
theorem maxLIPOTR_run_maximization_counterexample :
    maxLIPOTRrun [[0], [1]] (fun l => l.headD 0) (.inl 0) (.inl 1) 2 0 = ([0], 0) ∧
    ¬ (∀ p ∈ [[(0 : ℚ)], [1]],
        (fun l : List ℚ => l.headD 0) p ≤
          (maxLIPOTRrun [[0], [1]] (fun l => l.headD 0) (.inl 0) (.inl 1) 2 0).2) := by
  constructor
  · decide
  · intro hmax
    have := hmax [1] (by decide)
    revert this
    decide

/-- C1 (amended): `MaxLIPOTR.run` performs a global MINIMIZATION over the
bounded box and returns the best-observed (lowest-scoring) input coordinates
together with the objective value at those coordinates: whenever at least one
point is sampled, the returned point is among the sampled points, the returned
value is the objective at that point, and no sampled point scores lower. -/
theorem maxLIPOTR_run_returns_lowest (samples : List (List ℚ)) (f : List ℚ → ℚ)
    (xMin xMax : BoundsIn) (numEvals : ℕ) (eps : ℚ)
    (h : samples.take numEvals ≠ []) :
    (maxLIPOTRrun samples f xMin xMax numEvals eps).1 ∈ samples.take numEvals ∧
    (maxLIPOTRrun samples f xMin xMax numEvals eps).2 =
      f (maxLIPOTRrun samples f xMin xMax numEvals eps).1 ∧
    ∀ p ∈ samples.take numEvals,
      (maxLIPOTRrun samples f xMin xMax numEvals eps).2 ≤ f p := by
  unfold maxLIPOTRrun findMinGlobal
  exact argminList_spec f (samples.take numEvals) h

/-- Witness for the amended C1 theorem at a concrete input. -/
theorem maxLIPOTR_run_returns_lowest_witness :
    (maxLIPOTRrun [[3], [1], [2]] (fun l => l.headD 0) (.inl 0) (.inl 4) 3 0).1
        ∈ ([[3], [1], [2]] : List (List ℚ)).take 3 ∧
    (maxLIPOTRrun [[3], [1], [2]] (fun l => l.headD 0) (.inl 0) (.inl 4) 3 0).2 =
      (fun l : List ℚ => l.headD 0)
        (maxLIPOTRrun [[3], [1], [2]] (fun l => l.headD 0) (.inl 0) (.inl 4) 3 0).1 ∧
    ∀ p ∈ ([[3], [1], [2]] : List (List ℚ)).take 3,
      (maxLIPOTRrun [[3], [1], [2]] (fun l => l.headD 0) (.inl 0) (.inl 4) 3 0).2 ≤
        (fun l : List ℚ => l.headD 0) p :=
  maxLIPOTR_run_returns_lowest [[3], [1], [2]] (fun l => l.headD 0) (.inl 0) (.inl 4) 3 0
    (by decide)

/-- C3: a second invocation of the memoized objective with an identical
argument tuple returns the cached result and leaves the cache state, in
particular the underlying-call counter, unchanged: no second call of the
underlying objective happens. -/
theorem memoized_objective_cache_hit (f : List ℚ → ℚ) (st : MemoState)
    (args : List ℚ) :
    evaluateObjective f (evaluateObjective f st args).2 args =
      ((evaluateObjective f st args).1, (evaluateObjective f st args).2) := by
  unfold evaluateObjective
  cases hl : memoLookup st.cache args with
  | some v => simp [hl]
  | none =>
    have h2 : memoLookup ((args, f args) :: st.cache) args = some (f args) := by
      simp [memoLookup, List.find?_cons]
    simp [hl, h2]

/-- C6: `MaxLIPOTR.run` passes the bounds to the underlying global search
after normalisation; scalar bounds are wrapped into singleton lists (a
one-dimensional search) and equal-length list bounds stay equal-length. -/
theorem maxLIPOTR_run_bounds (samples : List (List ℚ)) (f : List ℚ → ℚ)
    (numEvals : ℕ) (eps : ℚ) (a b : ℚ) (la lb : List ℚ) :
    (∀ xMin xMax : BoundsIn,
      maxLIPOTRrun samples f xMin xMax numEvals eps =
        findMinGlobal samples f (toBoundsList xMin) (toBoundsList xMax) numEvals eps) ∧
    (toBoundsList (.inl a)).length = 1 ∧
    (toBoundsList (.inl b)).length = 1 ∧
    (la.length = lb.length →
      (toBoundsList (.inr la)).length = (toBoundsList (.inr lb)).length) := by
  refine ⟨fun _ _ => rfl, rfl, rfl, ?_⟩
  intro h
  simpa [toBoundsList] using h

/-- Witness for the C6 theorem at concrete bounds. -/
theorem maxLIPOTR_run_bounds_witness :
    (toBoundsList (.inr [1, 2])).length = (toBoundsList (.inr [3, 4])).length :=
  (maxLIPOTR_run_bounds [] (fun _ => 0) 0 0 0 0 [1, 2] [3, 4]).2.2.2 (by decide)

/-! ## Claim theorems: tasks -/

/-- C8: a second call of `Task.requires` replaces the recorded requirements
with exactly the positional and named dependencies of the second call; nothing
of the first call survives. -/
theorem taskRequires_replaces (t : MTask) (a1 : List Nat)
    (k1 : List (String × Nat)) (a2 : List Nat) (k2 : List (String × Nat)) :
    (taskRequires (taskRequires t a1 k1) a2 k2).requirements = (a2, k2) := rfl


/-! ## Claim theorems: QChem compute pipeline -/

/-- C7: one `compute` call of `QChemBaseTask` produces exactly one input-file
write, exactly one engine invocation and exactly one parse of the output, for
every molecule, settings argument and collaborator behaviour. -/
theorem qchemBaseCompute_single_invocation {α : Type}
    (defaults : Settings → Settings) (parse : CclibData → α)
    (engineOut : String × Settings → CclibData) (molecule : String)
    (settings : Option Settings) :
    (qchemBaseCompute defaults parse engineOut molecule settings).1.count
        .executeEngine = 1 ∧
    (qchemBaseCompute defaults parse engineOut molecule settings).1.count
        .writeInput = 1 ∧
    (qchemBaseCompute defaults parse engineOut molecule settings).1.count
        .parseOutput = 1 := by
  cases settings <;> exact ⟨rfl, rfl, rfl⟩

/-- C9: the settings phase of `compute` (shared by `QChemBaseTask.compute`,
`QChemKoopmanError.compute` and `QChemLRTDDFT.compute`) deep-copies a
non-None caller settings object before applying defaults, so every
pre-existing settings object in the store — in particular the one the caller
passed — is observably unchanged, while the defaults are written into the
fresh private copy. -/
theorem computeSettingsPhase_frame (defaults : Settings → Settings)
    (store : List Settings) (r j : ℕ) (h : j < store.length) :
    (computeSettingsPhase defaults store (some r)).1.getD j [] =
      store.getD j [] ∧
    (computeSettingsPhase defaults store (some r)).1.getD store.length [] =
      defaults (store.getD r []) := by
  unfold computeSettingsPhase deepcopyAlloc
  have hcopy : (store ++ [store.getD r []]).getD store.length [] =
      store.getD r [] := by
    rw [List.getD_eq_getElem?_getD, List.getElem?_concat_length]
    rfl
  constructor
  · rw [List.getD_eq_getElem?_getD,
      List.getElem?_set_ne (Nat.ne_of_gt h),
      List.getElem?_append, if_pos h, ← List.getD_eq_getElem?_getD]
  · rw [List.getD_eq_getElem?_getD,
      List.getElem?_set_self (by simp [List.length_append]), hcopy]
    rfl

/-- Witness for the C9 frame theorem at a concrete store. -/
theorem computeSettingsPhase_frame_witness :
    (computeSettingsPhase qchemSinglePointDefaults
        [[(["rem", "basis"], SVal.s "sto-3g")]] (some 0)).1.getD 0 [] =
      ([[(["rem", "basis"], SVal.s "sto-3g")]] : List Settings).getD 0 [] ∧
    (computeSettingsPhase qchemSinglePointDefaults
        [[(["rem", "basis"], SVal.s "sto-3g")]] (some 0)).1.getD 1 [] =
      qchemSinglePointDefaults
        (([[(["rem", "basis"], SVal.s "sto-3g")]] : List Settings).getD 0 []) :=
  computeSettingsPhase_frame qchemSinglePointDefaults
    [[(["rem", "basis"], SVal.s "sto-3g")]] 0 0 (by decide)

/-- C10: `QChemKoopmanError.compute` returns
`sqrt((ip + homo)^2)` when the electron affinity `ea = neutral - anion` is
not positive, and `sqrt((ip + homo)^2 + (ea + lumo)^2)` when `ea` is
positive, with `ip = cation - neutral`: the `(ea + lumo)^2` term is included
exactly for positive electron affinity. -/
theorem koopmanError_formula (neutral cation anion homo lumo : ℚ) :
    Real.sqrt (koopmanErrorJsq neutral cation anion homo lumo) =
      if 0 < neutral - anion then
        Real.sqrt ((((cation - neutral) + homo) ^ 2 +
          ((neutral - anion) + lumo) ^ 2 : ℚ))
      else Real.sqrt ((((cation - neutral) + homo) ^ 2 : ℚ)) := by
  by_cases hea : 0 < neutral - anion <;> simp [koopmanErrorJsq, hea]

/-- C5: when the parsed output lacks a required attribute, each parser
returns its documented null fallback and never a partially-populated result:
`QChemSinglePoint.parse` yields `None`, `QChemSinglePointFrontier.parse`
yields `(None, None, None)`, and `QChemPolarizability.parse` yields a
`Polarizability` wrapping `None`. -/
theorem qchem_parse_null_fallbacks (d : CclibData) :
    (d.scfenergies = none → qchemSinglePointParse d = none) ∧
    (d.scfenergies = none ∨ d.moenergies = none ∨ d.homos = none →
      qchemSinglePointFrontierParse d = .ok (none, none, none)) ∧
    (d.polarizabilities = none → qchemPolarizabilityParse d = .ok ⟨none⟩) := by
  obtain ⟨sc, mo, ho, po⟩ := d
  refine ⟨?_, ?_, ?_⟩
  · intro h
    simp only at h
    simp [qchemSinglePointParse, h]
  · intro h
    simp only at h
    cases sc <;> cases mo <;> cases ho <;>
      simp_all [qchemSinglePointFrontierParse]
  · intro h
    simp only at h
    simp [qchemPolarizabilityParse, h]

/-- Witness for the C5 fallback theorem: an output with every attribute
absent. -/
theorem qchem_parse_null_fallbacks_witness :
    qchemSinglePointParse ⟨none, none, none, none⟩ = none ∧
    qchemSinglePointFrontierParse ⟨none, none, none, none⟩ =
      .ok (none, none, none) ∧
    qchemPolarizabilityParse ⟨none, none, none, none⟩ = .ok ⟨none⟩ :=
  ⟨(qchem_parse_null_fallbacks ⟨none, none, none, none⟩).1 rfl,
    (qchem_parse_null_fallbacks ⟨none, none, none, none⟩).2.1 (Or.inl rfl),
    (qchem_parse_null_fallbacks ⟨none, none, none, none⟩).2.2 rfl⟩

/-! ## Fill lemmas for guarded defaults -/

theorem fill_self {s : Settings} {k : SKey} {v : SVal} (h : memS s k = false) :
    getS (setWhen (!memS s k) s k v) k = some v := by
  rw [h]
  exact getS_setWhen_self

theorem fill_self2 {s : Settings} {k kg : SKey} {v : SVal}
    (h : memS s k = false) (hg : memS s kg = false) :
    getS (setWhen (!memS s k && !memS s kg) s k v) k = some v := by
  rw [h, hg]
  exact getS_setWhen_self

theorem fill_self2b {s : Settings} {k kg : SKey} {v : SVal}
    (hg : memS s kg = false) (h : memS s k = false) :
    getS (setWhen (!memS s kg && !memS s k) s k v) k = some v := by
  rw [h, hg]
  exact getS_setWhen_self

theorem fill_thermal (val : String) {s : Settings} {k kv : SKey} {v : SVal}
    (hv : getS s kv = some (.s val)) (ht : stripChars (lowerChars val.data) = "thermal".data)
    (habs : memS s k = false) :
    getS (setWhen (memS s kv && thermalVal (getS s kv) && !memS s k) s k v) k
      = some v := by
  have hg : (memS s kv && thermalVal (getS s kv) && !memS s k) = true := by
    rw [hv, memS_of_getS_some hv, habs]
    simp [thermalVal, ht]
  rw [hg]
  exact getS_setWhen_self

/-! ## Claim theorems: settings merge law -/

/-- C2 counterexample: with caller settings `S = {("rem","method"):
"b3lyp"}`, the key `("rem","exchange")` is absent from `S` and has default
value `"HF"` (as the defaults applied to empty settings show), yet the merged
settings of `QChemSinglePoint` do not contain it: the exchange default is
guarded by the absence of `("rem","method")`, so `merge(D,S)[k] == D[k]` fails
for a key absent from `S`. -/
theorem qchem_defaults_override_law_counterexample :
    memS [(["rem", "method"], SVal.s "b3lyp")] ["rem", "exchange"] = false ∧
    getS (qchemSinglePointDefaults []) ["rem", "exchange"] = some (.s "HF") ∧
    getS (qchemSinglePointDefaults [(["rem", "method"], SVal.s "b3lyp")])
        ["rem", "exchange"] = none := by
  decide

/-- C2 (amended): caller-supplied settings are never overridden
(`merge(D,S)[k] == S[k]` for every key present in `S`, for both
`QChemSinglePoint` and `QChemAIMD`), and defaults fill absent keys subject to
the guards of the code: the unguarded defaults (`basis`, `jobtype`,
`time_step`, `aimd_steps`) fill whenever their key is absent, the `exchange`
default also requires `("rem","method")` to be absent, the `aimd_init_veloc`
default also requires `("velocity",)` to be absent, and the `aimd_temp`
default fills only in thermal mode. -/
theorem qchem_defaults_merge_amended (S : Settings) :
    (∀ k v, getS S k = some v → getS (qchemSinglePointDefaults S) k = some v) ∧
    (∀ k v, getS S k = some v → getS (qchemAIMDDefaults S) k = some v) ∧
    (memS S ["rem", "exchange"] = false → memS S ["rem", "method"] = false →
      getS (qchemSinglePointDefaults S) ["rem", "exchange"] = some (.s "HF")) ∧
    (memS S ["rem", "basis"] = false →
      getS (qchemSinglePointDefaults S) ["rem", "basis"] = some (.s "3-21G")) ∧
    (memS S ["rem", "jobtype"] = false →
      getS (qchemSinglePointDefaults S) ["rem", "jobtype"] = some (.s "sp")) ∧
    (memS S ["rem", "exchange"] = false → memS S ["rem", "method"] = false →
      getS (qchemAIMDDefaults S) ["rem", "exchange"] = some (.s "HF")) ∧
    (memS S ["rem", "basis"] = false →
      getS (qchemAIMDDefaults S) ["rem", "basis"] = some (.s "3-21G")) ∧
    (memS S ["rem", "jobtype"] = false →
      getS (qchemAIMDDefaults S) ["rem", "jobtype"] = some (.s "aimd")) ∧
    (memS S ["rem", "time_step"] = false →
      getS (qchemAIMDDefaults S) ["rem", "time_step"] = some (.i 1)) ∧
    (memS S ["rem", "aimd_steps"] = false →
      getS (qchemAIMDDefaults S) ["rem", "aimd_steps"] = some (.i 10)) ∧
    (memS S ["velocity"] = false → memS S ["rem", "aimd_init_veloc"] = false →
      getS (qchemAIMDDefaults S) ["rem", "aimd_init_veloc"] = some (.s "thermal")) ∧
    (memS S ["velocity"] = false → memS S ["rem", "aimd_init_veloc"] = false →
      memS S ["rem", "aimd_temp"] = false →
      getS (qchemAIMDDefaults S) ["rem", "aimd_temp"] = some (.i 300)) ∧
    (∀ v, getS S ["rem", "aimd_init_veloc"] = some (.s v) →
      stripChars (lowerChars v.data) = "thermal".data →
      memS S ["rem", "aimd_temp"] = false →
      getS (qchemAIMDDefaults S) ["rem", "aimd_temp"] = some (.i 300)) := by
  refine ⟨?_, ?_, ?_, ?_, ?_, ?_, ?_, ?_, ?_, ?_, ?_, ?_, ?_⟩
  · -- single point, caller wins
    intro k v h
    unfold qchemSinglePointDefaults
    apply getS_setWhen_keep
    · intro hb
      simp only [Bool.not_eq_true'] at hb
      exact hb
    apply getS_setWhen_keep
    · intro hb
      simp only [Bool.not_eq_true'] at hb
      exact hb
    apply getS_setWhen_keep
    · intro hb
      simp only [Bool.and_eq_true, Bool.not_eq_true'] at hb
      exact hb.1
    exact h
  · -- aimd, caller wins
    intro k v h
    unfold qchemAIMDDefaults
    apply getS_setWhen_keep
    · intro hb
      simp only [Bool.and_eq_true, Bool.not_eq_true'] at hb
      exact hb.2
    apply getS_setWhen_keep
    · intro hb
      simp only [Bool.and_eq_true, Bool.not_eq_true'] at hb
      exact hb.2
    apply getS_setWhen_keep
    · intro hb
      simp only [Bool.not_eq_true'] at hb
      exact hb
    apply getS_setWhen_keep
    · intro hb
      simp only [Bool.not_eq_true'] at hb
      exact hb
    apply getS_setWhen_keep
    · intro hb
      simp only [Bool.not_eq_true'] at hb
      exact hb
    apply getS_setWhen_keep
    · intro hb
      simp only [Bool.not_eq_true'] at hb
      exact hb
    apply getS_setWhen_keep
    · intro hb
      simp only [Bool.and_eq_true, Bool.not_eq_true'] at hb
      exact hb.1
    exact h
  · -- single point, exchange
    intro hx hm
    unfold qchemSinglePointDefaults
    rw [getS_setWhen_ne _ _ _ (by decide), getS_setWhen_ne _ _ _ (by decide)]
    exact fill_self2 hx hm
  · -- single point, basis
    intro hb
    unfold qchemSinglePointDefaults
    rw [getS_setWhen_ne _ _ _ (by decide)]
    apply fill_self
    rw [memS_setWhen_ne _ _ _ (by decide)]
    exact hb
  · -- single point, jobtype
    intro hj
    unfold qchemSinglePointDefaults
    apply fill_self
    rw [memS_setWhen_ne _ _ _ (by decide), memS_setWhen_ne _ _ _ (by decide)]
    exact hj
  · -- aimd, exchange
    intro hx hm
    unfold qchemAIMDDefaults
    rw [getS_setWhen_ne _ _ _ (by decide), getS_setWhen_ne _ _ _ (by decide),
      getS_setWhen_ne _ _ _ (by decide), getS_setWhen_ne _ _ _ (by decide),
      getS_setWhen_ne _ _ _ (by decide), getS_setWhen_ne _ _ _ (by decide)]
    exact fill_self2 hx hm
  · -- aimd, basis
    intro hb
    unfold qchemAIMDDefaults
    rw [getS_setWhen_ne _ _ _ (by decide), getS_setWhen_ne _ _ _ (by decide),
      getS_setWhen_ne _ _ _ (by decide), getS_setWhen_ne _ _ _ (by decide),
      getS_setWhen_ne _ _ _ (by decide)]
    apply fill_self
    rw [memS_setWhen_ne _ _ _ (by decide)]
    exact hb
  · -- aimd, jobtype
    intro hj
    unfold qchemAIMDDefaults
    rw [getS_setWhen_ne _ _ _ (by decide), getS_setWhen_ne _ _ _ (by decide),
      getS_setWhen_ne _ _ _ (by decide), getS_setWhen_ne _ _ _ (by decide)]
    apply fill_self
    rw [memS_setWhen_ne _ _ _ (by decide), memS_setWhen_ne _ _ _ (by decide)]
    exact hj
  · -- aimd, time_step
    intro ht
    unfold qchemAIMDDefaults
    rw [getS_setWhen_ne _ _ _ (by decide), getS_setWhen_ne _ _ _ (by decide),
      getS_setWhen_ne _ _ _ (by decide)]
    apply fill_self
    rw [memS_setWhen_ne _ _ _ (by decide), memS_setWhen_ne _ _ _ (by decide),
      memS_setWhen_ne _ _ _ (by decide)]
    exact ht
  · -- aimd, aimd_steps
    intro hs
    unfold qchemAIMDDefaults
    rw [getS_setWhen_ne _ _ _ (by decide), getS_setWhen_ne _ _ _ (by decide)]
    apply fill_self
    rw [memS_setWhen_ne _ _ _ (by decide), memS_setWhen_ne _ _ _ (by decide),
      memS_setWhen_ne _ _ _ (by decide), memS_setWhen_ne _ _ _ (by decide)]
    exact hs
  · -- aimd, aimd_init_veloc
    intro hv hi
    unfold qchemAIMDDefaults
    rw [getS_setWhen_ne _ _ _ (by decide)]
    apply fill_self2b
    · rw [memS_setWhen_ne _ _ _ (by decide), memS_setWhen_ne _ _ _ (by decide),
        memS_setWhen_ne _ _ _ (by decide), memS_setWhen_ne _ _ _ (by decide),
        memS_setWhen_ne _ _ _ (by decide)]
      exact hv
    · rw [memS_setWhen_ne _ _ _ (by decide), memS_setWhen_ne _ _ _ (by decide),
        memS_setWhen_ne _ _ _ (by decide), memS_setWhen_ne _ _ _ (by decide),
        memS_setWhen_ne _ _ _ (by decide)]
      exact hi
  · -- aimd, aimd_temp after defaulted thermal init velocity
    intro hv hi htmp
    unfold qchemAIMDDefaults
    apply fill_thermal "thermal"
    · apply fill_self2b
      · rw [memS_setWhen_ne _ _ _ (by decide), memS_setWhen_ne _ _ _ (by decide),
          memS_setWhen_ne _ _ _ (by decide), memS_setWhen_ne _ _ _ (by decide),
          memS_setWhen_ne _ _ _ (by decide)]
        exact hv
      · rw [memS_setWhen_ne _ _ _ (by decide), memS_setWhen_ne _ _ _ (by decide),
          memS_setWhen_ne _ _ _ (by decide), memS_setWhen_ne _ _ _ (by decide),
          memS_setWhen_ne _ _ _ (by decide)]
        exact hi
    · decide
    · rw [memS_setWhen_ne _ _ _ (by decide), memS_setWhen_ne _ _ _ (by decide),
        memS_setWhen_ne _ _ _ (by decide), memS_setWhen_ne _ _ _ (by decide),
        memS_setWhen_ne _ _ _ (by decide), memS_setWhen_ne _ _ _ (by decide)]
      exact htmp
  · -- aimd, aimd_temp with caller-supplied thermal init velocity
    intro v hv ht htmp
    unfold qchemAIMDDefaults
    apply fill_thermal v
    · apply getS_setWhen_keep
      · intro hb
        simp only [Bool.and_eq_true, Bool.not_eq_true'] at hb
        exact hb.2
      rw [getS_setWhen_ne _ _ _ (by decide), getS_setWhen_ne _ _ _ (by decide),
        getS_setWhen_ne _ _ _ (by decide), getS_setWhen_ne _ _ _ (by decide),
        getS_setWhen_ne _ _ _ (by decide)]
      exact hv
    · exact ht
    · rw [memS_setWhen_ne _ _ _ (by decide), memS_setWhen_ne _ _ _ (by decide),
        memS_setWhen_ne _ _ _ (by decide), memS_setWhen_ne _ _ _ (by decide),
        memS_setWhen_ne _ _ _ (by decide), memS_setWhen_ne _ _ _ (by decide)]
      exact htmp

/-- Witness for the amended C2 theorem: empty caller settings receive all
unconditional defaults, and a caller-supplied basis is preserved. -/
theorem qchem_defaults_merge_amended_witness :
    getS (qchemSinglePointDefaults [(["rem", "basis"], SVal.s "sto-3g")])
        ["rem", "basis"] = some (.s "sto-3g") ∧
    getS (qchemSinglePointDefaults []) ["rem", "jobtype"] = some (.s "sp") ∧
    getS (qchemAIMDDefaults []) ["rem", "aimd_temp"] = some (.i 300) :=
  ⟨(qchem_defaults_merge_amended [(["rem", "basis"], SVal.s "sto-3g")]).1
      ["rem", "basis"] (.s "sto-3g") (by decide),
    (qchem_defaults_merge_amended []).2.2.2.2.1 (by decide),
    (qchem_defaults_merge_amended []).2.2.2.2.2.2.2.2.2.2.2.1 (by decide)
      (by decide) (by decide)⟩


/-! ## Split lemmas for the command-line round trip -/

theorem splitOnP_append_sep {α : Type} (p : α → Bool) (sep : α)
    (hsep : p sep = true) (xs ys : List α) :
    (xs ++ sep :: ys).splitOnP p = xs.splitOnP p ++ ys.splitOnP p := by
  induction xs with
  | nil => simp [List.splitOnP_cons, hsep]
  | cons x xs ih =>
    by_cases hx : p x
    · simp [List.splitOnP_cons, hx, ih]
    · simp only [List.cons_append, List.splitOnP_cons, hx, if_false, ih,
        Bool.false_eq_true]
      cases hxs : xs.splitOnP p with
      | nil => exact absurd hxs (List.splitOnP_ne_nil p xs)
      | cons hd tl => simp [List.modifyHead]

theorem splitOnP_space_no_space {w : List Char}
    (h : ∀ c ∈ w, c.isWhitespace = false) :
    List.splitOnP (fun c => c == ' ') w = [w] := by
  apply List.splitOnP_eq_single
  intro x hx
  intro hb
  have hxs : x = ' ' := by simpa using hb
  have := h x hx
  rw [hxs] at this
  exact absurd this (by decide)

theorem string_mk_data (s : String) : String.mk s.data = s := rfl

theorem shlexSplit_shellWord {w : String} (h : shellWord w) :
    shlexSplit w = [w] := by
  unfold shlexSplit
  simp only [List.splitOn]
  rw [splitOnP_space_no_space h.2]
  simp [h.1, string_mk_data]

theorem sjoin_data_splitOn (ws : List String) (h : ws ≠ []) :
    (sjoin ws).data.splitOn ' ' =
      (ws.map (fun w => w.data.splitOn ' ')).flatten := by
  induction ws with
  | nil => exact absurd rfl h
  | cons w t ih =>
    cases t with
    | nil => simp [sjoin]
    | cons x ts =>
      have ih2 := ih (by simp)
      rw [sjoin]
      rw [String.data_append, String.data_append]
      rw [show (" ").data = [' '] from rfl]
      rw [List.append_assoc, List.singleton_append]
      simp only [List.splitOn] at ih2 ⊢
      rw [splitOnP_append_sep _ _ (by decide), ih2]
      simp

theorem filter_map_flatten (ws : List String) :
    (((ws.map (fun w => w.data.splitOn ' ')).flatten.filter
        (fun w => w ≠ [])).map (fun w => String.mk w))
      = (ws.map shlexSplit).flatten := by
  induction ws with
  | nil => rfl
  | cons w t ih =>
    simp only [List.map_cons, List.flatten_cons, List.filter_append,
      List.map_append, ih, shlexSplit]

theorem shlexSplit_sjoin (ws : List String) (h : ws ≠ []) :
    shlexSplit (sjoin ws) = (ws.map shlexSplit).flatten := by
  unfold shlexSplit
  rw [sjoin_data_splitOn ws h]
  exact filter_map_flatten ws

theorem flatten_map_shlexSplit {as : List String}
    (h : ∀ a ∈ as, shellWord a) : (as.map shlexSplit).flatten = as := by
  induction as with
  | nil => rfl
  | cons a t ih =>
    rw [List.map_cons, List.flatten_cons,
      shlexSplit_shellWord (h a (List.mem_cons_self a t)),
      ih (fun x hx => h x (List.mem_cons_of_mem a hx))]
    rfl

/-! ## Decimal representation of naturals contains no whitespace -/

theorem digitChar_not_whitespace (m : ℕ) :
    (Nat.digitChar m).isWhitespace = false := by
  rcases lt_or_ge m 16 with h | h
  · interval_cases m <;> rfl
  · have h0 : ¬ m = 0 := by omega
    have h1 : ¬ m = 1 := by omega
    have h2 : ¬ m = 2 := by omega
    have h3 : ¬ m = 3 := by omega
    have h4 : ¬ m = 4 := by omega
    have h5 : ¬ m = 5 := by omega
    have h6 : ¬ m = 6 := by omega
    have h7 : ¬ m = 7 := by omega
    have h8 : ¬ m = 8 := by omega
    have h9 : ¬ m = 9 := by omega
    have h10 : ¬ m = 10 := by omega
    have h11 : ¬ m = 11 := by omega
    have h12 : ¬ m = 12 := by omega
    have h13 : ¬ m = 13 := by omega
    have h14 : ¬ m = 14 := by omega
    have h15 : ¬ m = 15 := by omega
    unfold Nat.digitChar
    rw [if_neg h0, if_neg h1, if_neg h2, if_neg h3, if_neg h4, if_neg h5,
      if_neg h6, if_neg h7, if_neg h8, if_neg h9, if_neg h10, if_neg h11,
      if_neg h12, if_neg h13, if_neg h14, if_neg h15]
    rfl

theorem toDigitsCore_not_whitespace (b : ℕ) (fuel : ℕ) :
    ∀ (n : ℕ) (acc : List Char), (∀ c ∈ acc, c.isWhitespace = false) →
      ∀ c ∈ Nat.toDigitsCore b fuel n acc, c.isWhitespace = false := by
  induction fuel with
  | zero =>
    intro n acc hacc c hc
    simp only [Nat.toDigitsCore] at hc
    exact hacc c hc
  | succ fuel ih =>
    intro n acc hacc c hc
    simp only [Nat.toDigitsCore] at hc
    by_cases hnb : n / b = 0
    · rw [if_pos hnb] at hc
      rcases List.mem_cons.mp hc with h1 | h2
      · rw [h1]
        exact digitChar_not_whitespace _
      · exact hacc c h2
    · rw [if_neg hnb] at hc
      refine ih (n / b) ((n % b).digitChar :: acc) ?_ c hc
      intro d hd
      rcases List.mem_cons.mp hd with h1 | h2
      · rw [h1]
        exact digitChar_not_whitespace _
      · exact hacc d h2

theorem toDigitsCore_ne_nil (b : ℕ) (fuel : ℕ) :
    ∀ (n : ℕ) (acc : List Char), fuel ≠ 0 ∨ acc ≠ [] →
      Nat.toDigitsCore b fuel n acc ≠ [] := by
  induction fuel with
  | zero =>
    intro n acc h
    rcases h with h1 | h2
    · exact absurd rfl h1
    · simpa [Nat.toDigitsCore] using h2
  | succ fuel ih =>
    intro n acc h
    simp only [Nat.toDigitsCore]
    by_cases hnb : n / b = 0
    · simp [hnb]
    · rw [if_neg hnb]
      exact ih (n / b) _ (Or.inr (List.cons_ne_nil _ _))

theorem natRepr_shellWord (n : ℕ) : shellWord (Nat.repr n) := by
  constructor
  · exact toDigitsCore_ne_nil 10 (n + 1) n [] (Or.inl (Nat.succ_ne_zero n))
  · exact toDigitsCore_not_whitespace 10 (n + 1) n [] (by intro c hc; cases hc)

/-! ## Per-word splits of the composite command words -/

theorem shlexSplit_np (n : ℕ) :
    shlexSplit ("-np " ++ Nat.repr n) = ["-np", Nat.repr n] := by
  unfold shlexSplit
  rw [String.data_append]
  rw [show ("-np ").data = ['-', 'n', 'p'] ++ [' '] from rfl]
  rw [List.append_assoc, List.singleton_append]
  simp only [List.splitOn]
  rw [splitOnP_append_sep _ _ (by decide)]
  rw [show List.splitOnP (fun c => c == ' ') ['-', 'n', 'p'] = [['-', 'n', 'p']]
    from by decide]
  rw [splitOnP_space_no_space (natRepr_shellWord n).2]
  simp [(natRepr_shellWord n).1, string_mk_data]

theorem shlexSplit_nt (n : ℕ) :
    shlexSplit ("-nt " ++ Nat.repr n) = ["-nt", Nat.repr n] := by
  unfold shlexSplit
  rw [String.data_append]
  rw [show ("-nt ").data = ['-', 'n', 't'] ++ [' '] from rfl]
  rw [List.append_assoc, List.singleton_append]
  simp only [List.splitOn]
  rw [splitOnP_append_sep _ _ (by decide)]
  rw [show List.splitOnP (fun c => c == ' ') ['-', 'n', 't'] = [['-', 'n', 't']]
    from by decide]
  rw [splitOnP_space_no_space (natRepr_shellWord n).2]
  simp [(natRepr_shellWord n).1, string_mk_data]

theorem shlexSplit_space_word {w : String} (h : shellWord w) :
    shlexSplit (" " ++ w) = [w] := by
  unfold shlexSplit
  rw [String.data_append]
  rw [show (" ").data = [' '] from rfl, List.singleton_append]
  simp only [List.splitOn]
  rw [List.splitOnP_cons]
  rw [if_pos (by decide)]
  rw [splitOnP_space_no_space h.2]
  simp [h.1, string_mk_data]

theorem qchemCommandWords_eq (e : QChemEngineCfg) (c : Option (List String)) :
    qchemCommandWords e c =
      [e.executable]
      ++ (if e.save then ["-save"] else [])
      ++ (match e.arguments with
          | some a => a ++ c.getD []
          | none => [])
      ++ (match e.numProcessors with
          | some n => ["-np " ++ Nat.repr n]
          | none => [])
      ++ (match e.numThreads with
          | some n => ["-nt " ++ Nat.repr n]
          | none => [])
      ++ (if e.save && savenameTruthy e.savename then
            [" " ++ e.savename.getD ""]
          else []) := by
  obtain ⟨exe, save, args, np, nt, sn⟩ := e
  by_cases hsv : savenameTruthy sn = true <;>
    cases save <;> cases args <;> cases np <;> cases nt <;>
      simp [qchemCommandWords, List.append_assoc, hsv]

/-! ## Claim theorem: command-line grammar -/

/-- C4: the command line constructed by `QChem.command` matches the grammar
`executable [-save] [extra_args...] [-np n] [-nt n] [savename] input output`:
each optional element appears exactly when the corresponding configuration
field is set, in this order, except that the savename appears exactly when it
is configured (non-empty) AND the save flag is set.  Stated for configurations
whose strings are plain shell words, where the join-and-split of the source is
faithful to shlex. -/
theorem qchemCommand_grammar (e : QChemEngineCfg) (inp out : String)
    (hExe : shellWord e.executable)
    (hArgs : ∀ a ∈ e.arguments.getD [], shellWord a)
    (hSave : (e.save && savenameTruthy e.savename) = true →
      shellWord (e.savename.getD ""))
    (hInp : shellWord inp) (hOut : shellWord out) :
    qchemCommand e inp out none =
      [e.executable]
      ++ (if e.save then ["-save"] else [])
      ++ e.arguments.getD []
      ++ (match e.numProcessors with
          | some n => ["-np", Nat.repr n]
          | none => [])
      ++ (match e.numThreads with
          | some n => ["-nt", Nat.repr n]
          | none => [])
      ++ (if e.save && savenameTruthy e.savename then [e.savename.getD ""]
          else [])
      ++ [inp, out] := by
  unfold qchemCommand
  rw [shlexSplit_sjoin _ (by
    rw [qchemCommandWords_eq]
    simp)]
  rw [qchemCommandWords_eq]
  simp only [List.map_append, List.flatten_append]
  have hA : (([e.executable].map shlexSplit)).flatten = [e.executable] := by
    simp [shlexSplit_shellWord hExe]
  have hB : (((if e.save then ["-save"] else []).map shlexSplit)).flatten =
      if e.save then ["-save"] else [] := by
    cases e.save
    · rfl
    · simp [shlexSplit_shellWord (show shellWord "-save" from by
        constructor
        · decide
        · decide)]
  have hC : (((match e.arguments with
      | some a => a ++ (none : Option (List String)).getD []
      | none => []).map shlexSplit)).flatten = e.arguments.getD [] := by
    cases ha : e.arguments with
    | none => rfl
    | some a =>
      simp only [Option.getD_none, List.append_nil]
      apply flatten_map_shlexSplit
      intro x hx
      apply hArgs
      rw [ha]
      simpa using hx
  have hD : (((match e.numProcessors with
      | some n => ["-np " ++ Nat.repr n]
      | none => []).map shlexSplit)).flatten =
      (match e.numProcessors with
      | some n => ["-np", Nat.repr n]
      | none => []) := by
    cases e.numProcessors with
    | none => rfl
    | some n => simp [shlexSplit_np n]
  have hE : (((match e.numThreads with
      | some n => ["-nt " ++ Nat.repr n]
      | none => []).map shlexSplit)).flatten =
      (match e.numThreads with
      | some n => ["-nt", Nat.repr n]
      | none => []) := by
    cases e.numThreads with
    | none => rfl
    | some n => simp [shlexSplit_nt n]
  have hF : (((if e.save && savenameTruthy e.savename then
        [" " ++ e.savename.getD ""]
      else []).map shlexSplit)).flatten =
      (if e.save && savenameTruthy e.savename then [e.savename.getD ""]
      else []) := by
    cases hsv : (e.save && savenameTruthy e.savename)
    · rfl
    · simp [shlexSplit_space_word (hSave hsv)]
  have hG : (([inp, out].map shlexSplit)).flatten = [inp, out] := by
    simp [shlexSplit_shellWord hInp, shlexSplit_shellWord hOut]
  rw [hA, hB, hC, hD, hE, hF, hG]

/-- Witness for the C4 grammar theorem: a fully-configured engine. -/
theorem qchemCommand_grammar_witness :
    qchemCommand ⟨"qchem", true, some ["-a", "-b"], some 4, some 2, some "sv"⟩
        "in.inp" "out.out" none =
      ["qchem", "-save", "-a", "-b", "-np", Nat.repr 4, "-nt", Nat.repr 2,
        "sv", "in.inp", "out.out"] :=
  qchemCommand_grammar ⟨"qchem", true, some ["-a", "-b"], some 4, some 2, some "sv"⟩
    "in.inp" "out.out" (by constructor <;> decide)
    (by intro a ha; fin_cases ha <;> exact ⟨by decide, by decide⟩)
    (fun _ => ⟨by decide, by decide⟩) ⟨by decide, by decide⟩ ⟨by decide, by decide⟩

end Materia
